import Mathlib

set_option maxRecDepth 8000

/- Shallow embedding of the text-processing core of the book-translator
   repository (src/text_processing/text_processing.py).  Python strings are
   modelled as lists of Unicode code points (one Char per code point).
   Python integers are modelled as Int where sign matters, Nat otherwise.
   Fallible code (the ValueError that range() can raise inside
   split_text_into_chunks) is modelled with Except. -/

abbrev Str := List Char

def str (s : String) : Str := s.data

/-- Line boundaries recognised by Python str.splitlines:
    LF, VT, FF, CR, FS, GS, RS, NEL, LINE SEPARATOR, PARAGRAPH SEPARATOR. -/
def isLineBoundary (c : Char) : Bool :=
  c.val == 10 || c.val == 11 || c.val == 12 || c.val == 13 ||
  c.val == 28 || c.val == 29 || c.val == 30 || c.val == 133 ||
  c.val == 8232 || c.val == 8233

/-- Python whitespace, as recognised by str.isspace, str.strip and the regex
    whitespace class: ASCII whitespace, the separator controls 0x1c-0x1f,
    NEL, NBSP and the Unicode space characters. -/
def pyIsSpace (c : Char) : Bool :=
  (9 ≤ c.val && c.val ≤ 13) || c.val == 32 ||
  (28 ≤ c.val && c.val ≤ 31) || c.val == 133 || c.val == 160 ||
  c.val == 5760 || (8192 ≤ c.val && c.val ≤ 8202) ||
  c.val == 8232 || c.val == 8233 || c.val == 8239 || c.val == 8287 ||
  c.val == 12288

/-- Python str.splitlines: split at every line boundary, treating CR LF as a
    single boundary; a trailing boundary produces no final empty line. -/
def pySplitlines : Str → List Str
  | [] => []
  | [c] => if isLineBoundary c then [[]] else [[c]]
  | c :: d :: rest =>
    if isLineBoundary c then
      if c.val == 13 && d.val == 10 then [] :: pySplitlines rest
      else [] :: pySplitlines (d :: rest)
    else
      match pySplitlines (d :: rest) with
      | [] => [[c]]
      | t :: ts => (c :: t) :: ts

/-- Python str.strip with no argument: remove leading and trailing whitespace. -/
def pyStrip (l : Str) : Str :=
  ((l.dropWhile pyIsSpace).reverse.dropWhile pyIsSpace).reverse

/-- Python sep.join sequence. -/
def joinSep (sep : Str) : List Str → Str
  | [] => []
  | [l] => l
  | l :: l2 :: ls => l ++ sep ++ joinSep sep (l2 :: ls)

/-- Python s.startswith p, for plain strings: p is an initial segment of s. -/
def hasPrefixStr (p s : Str) : Bool := decide (s.take p.length = p)

/-- Python membership test p in s for strings: p occurs contiguously in s. -/
def hasSubstr (p : Str) : Str → Bool
  | [] => decide (p = [])
  | c :: rest => hasPrefixStr p (c :: rest) || hasSubstr p rest

/-- Python line.split for the single-space separator: every space is a split
    point, adjacent spaces produce empty fields, the empty string yields one
    empty field. -/
def splitSp : Str → List Str
  | [] => [[]]
  | c :: rest =>
    if c = ' ' then [] :: splitSp rest
    else
      match splitSp rest with
      | [] => [[c]]
      | t :: ts => (c :: t) :: ts

/-- Worker for Python str.replace: scan left to right, replacing
    non-overlapping occurrences of pat (assumed nonempty here).  The fuel
    argument starts at the length of the string and dominates it throughout,
    so the zero-fuel branch is never taken for the initial call. -/
def replaceAllGo (pat rep : Str) : Nat → Str → Str
  | 0, s => s
  | _ + 1, [] => []
  | f + 1, c :: s =>
    if hasPrefixStr pat (c :: s) then
      rep ++ replaceAllGo pat rep f ((c :: s).drop pat.length)
    else c :: replaceAllGo pat rep f s

/-- Python s.replace(pat, rep): for an empty pattern, rep is inserted before
    every character and at the end; otherwise leftmost non-overlapping
    occurrences of pat are replaced by rep. -/
def replaceAll (s pat rep : Str) : Str :=
  match pat with
  | [] => rep ++ s.foldr (fun c acc => c :: (rep ++ acc)) []
  | _ :: _ => replaceAllGo pat rep s.length s

/-- Python str.lower restricted to ASCII plus the uppercase letters that can
    occur in this repository's constant tables; other code points are
    returned unchanged. -/
def pyToLowerChar (c : Char) : Char :=
  if c = 'Ị' then 'ị'
  else if c = 'Ể' then 'ể'
  else if c = 'Ạ' then 'ạ'
  else if c = 'À' then 'à'
  else c.toLower

/-- Python str.isupper for a single character, restricted to ASCII plus the
    uppercase letters occurring in this repository's constant tables. -/
def pyIsUpper (c : Char) : Bool :=
  ('A' ≤ c && c ≤ 'Z') || c == 'Ị' || c == 'Ể' || c == 'Ạ' || c == 'À'

/-- Word character of the Python regex word class, restricted to the fragment
    exercised by this repository: ASCII letters and digits, the underscore
    and the CJK Unified Ideographs block. -/
def isWordChar (c : Char) : Bool :=
  c.isAlpha || c.isDigit || c == '_' || (0x4e00 ≤ c.val && c.val ≤ 0x9fff)

/-- CJK Unified Ideograph, the character class of the source's Chinese
    detection regex (source lines 69 and 231). -/
def isCJK (c : Char) : Bool := 0x4e00 ≤ c.val && c.val ≤ 0x9fff

/- ----------------------------------------------------------------- -/
/- Constant tables of the source module.                              -/
/- ----------------------------------------------------------------- -/

/-- REPLACEMENTS (source lines 8-11). -/
def REPLACEMENTS : List (Str × Str) :=
  [(str "chị rể", str "anh rể"), (str "ngoại bà", str "bà ngoại")]

/-- The ignored-prefix configuration, called IGNORE_PREFIX in the source
    (lines 13-15). -/
def IGNORE_PREFIX_LIST : List Str := [str "https://"]

/-- IGNORE_WORDS_IN_TRANSLATION (source lines 17-20). -/
def IGNORE_WORDS_IN_TRANSLATION : List Str :=
  [str "BẢN DỊCH", str "NỘI DUNG ĐOẠN VĂN"]

/-- The characters of the three alternation classes of the Vietnamese
    detection regex (source lines 61-62), in source order. -/
def vietnameseChars : Str :=
  str "àáâãäåæçèéêëìíîïðñòóôõöøùúûüýÿÀÁÂÃÄÅÆÇÈÉÊËÌÍÎÏÐÑÒÓÔÕÖØÙÚÛÜÝăâđêôơưĂÂĐÊÔƠƯ"

/- ----------------------------------------------------------------- -/
/- Text Cleaner (preprocess_downloaded_text, source lines 23-63).     -/
/- ----------------------------------------------------------------- -/

/-- contains_vietnamese (source lines 54-63): some character of the line is
    in one of the regex classes. -/
def contains_vietnamese (l : Str) : Bool := l.any (fun c => vietnameseChars.contains c)

/-- The stop test of source line 37: the lowercased line contains the two
    characters p s contiguously. -/
def hasPS (l : Str) : Bool := hasSubstr (str "ps") (l.map pyToLowerChar)

/-- The ignored-prefix test of source line 41: Python tests membership
    (prefix in line), i.e. containment anywhere in the line. -/
def ignoreHit (l : Str) : Bool := IGNORE_PREFIX_LIST.any (fun p => hasSubstr p l)

/-- A line survives the per-line filters of the cleaner loop. -/
def keepLine (l : Str) : Bool := !ignoreHit l && !contains_vietnamese l

/-- The line loop of preprocess_downloaded_text (source lines 35-48):
    break at the first line whose lowercased text contains p s, skip lines
    containing an ignored prefix, skip lines with Vietnamese characters. -/
def cleanLines : List Str → List Str
  | [] => []
  | l :: rest =>
    if hasPS l then []
    else if ignoreHit l then cleanLines rest
    else if contains_vietnamese l then cleanLines rest
    else l :: cleanLines rest

/-- Worker for the HTML-tag stripping regex substitution of source line 31:
    at an opening angle bracket, a match needs at least one character before
    the next closing angle bracket; scanning resumes after each match.
    Fuel starts at the length of the string and dominates it. -/
def stripTagsGo : Nat → Str → Str
  | 0, s => s
  | _ + 1, [] => []
  | f + 1, c :: rest =>
    if c = '<' then
      match List.findIdx? (fun d => d = '>') rest with
      | some j => if 1 ≤ j then stripTagsGo f (rest.drop (j + 1)) else c :: stripTagsGo f rest
      | none => c :: stripTagsGo f rest
    else c :: stripTagsGo f rest

/-- The tag-stripping substitution of source line 31. -/
def stripTags (s : Str) : Str := stripTagsGo s.length s

/-- Source lines 31-32: strip markup tags, then delete the fullwidth
    non-breaking-space artifact. -/
def stripArtifacts (t : Str) : Str := replaceAll (stripTags t) (str "＆ｎｂｓｐ；") []

/-- preprocess_downloaded_text (source lines 23-51). -/
def preprocess_downloaded_text (t : Str) : Str :=
  joinSep ['\n'] (cleanLines (pySplitlines (stripArtifacts t)))

/- ----------------------------------------------------------------- -/
/- Untranslated-span detector (source lines 67-72).                   -/
/- ----------------------------------------------------------------- -/

/-- detect_untranslated_chinese (source lines 67-72): count CJK code points,
    ratio is count over total times 100 (0 for empty text), flag is
    count positive.  Python float arithmetic is modelled with Rat; the
    divisions appearing here are exact in both models. -/
def detect_untranslated_chinese (t : Str) : Bool × ℚ :=
  (decide (0 < (t.filter isCJK).length),
   if 0 < t.length then (((t.filter isCJK).length : ℚ) / (t.length : ℚ)) * 100 else 0)

/- ----------------------------------------------------------------- -/
/- Chunker (split_text_into_chunks, source lines 75-102).             -/
/- ----------------------------------------------------------------- -/

/-- Python range(0, stop, step) for stop a length: ValueError on step zero,
    empty for negative step, else the multiples of step below stop. -/
def pyRange (stop : Nat) (step : Int) : Except String (List Nat) :=
  if step = 0 then Except.error "ValueError: range() arg 3 must not be zero"
  else if step < 0 then Except.ok []
  else Except.ok ((List.range ((stop + step.toNat - 1) / step.toNat)).map (fun i => i * step.toNat))

/-- The line loop of split_text_into_chunks (source lines 80-101), carrying
    the accumulating current chunk; emits the final chunk if nonempty. -/
def splitLoop (cs : Int) : List Str → Str → Except String (List Str)
  | [], cur => Except.ok (if cur = [] then [] else [cur])
  | l :: rest, cur =>
    let line := pyStrip l
    if line = [] then splitLoop cs rest cur
    else if cs < (line.length : Int) then
      match pyRange line.length cs with
      | Except.error e => Except.error e
      | Except.ok idxs =>
        match splitLoop cs rest [] with
        | Except.error e => Except.error e
        | Except.ok tail =>
          Except.ok ((if cur = [] then [] else [cur]) ++
                     idxs.map (fun i => (line.drop i).take cs.toNat) ++ tail)
    else
      let sep : Str := if cur = [] then [] else ['\n']
      if (cur.length : Int) + (sep.length : Int) + (line.length : Int) ≤ cs then
        splitLoop cs rest (cur ++ sep ++ line)
      else
        match splitLoop cs rest line with
        | Except.error e => Except.error e
        | Except.ok tail => Except.ok (cur :: tail)

/-- split_text_into_chunks (source lines 75-102). -/
def split_text_into_chunks (text : Str) (chunk_size : Int) : Except String (List Str) :=
  splitLoop chunk_size (pySplitlines text) []

/- ----------------------------------------------------------------- -/
/- Translation Normalizer (normalize_translation, lines 104-144).     -/
/- ----------------------------------------------------------------- -/

/-- Worker for the whitespace-collapsing substitution of source line 129:
    a maximal run of two or more whitespace characters becomes one space;
    a lone whitespace character is kept as it is.  Fuel starts at the
    length of the string and dominates it. -/
def collapseSpacesGo : Nat → Str → Str
  | 0, s => s
  | _ + 1, [] => []
  | f + 1, c :: rest =>
    if pyIsSpace c then
      match rest with
      | [] => [c]
      | d :: _ =>
        if pyIsSpace d then ' ' :: collapseSpacesGo f (rest.dropWhile pyIsSpace)
        else c :: collapseSpacesGo f rest
    else c :: collapseSpacesGo f rest

/-- The whitespace-collapsing substitution of source line 129. -/
def collapseSpaces (s : Str) : Str := collapseSpacesGo s.length s

/-- Case-insensitive literal prefix match, the matching notion of the
    IGNORECASE regex of source line 134. -/
def ciMatches (pat s : Str) : Bool :=
  decide ((s.take pat.length).map pyToLowerChar = pat.map pyToLowerChar) &&
  decide (pat.length ≤ s.length)

/-- The replacement text of the substitution lambda of source lines 136-138:
    the replacement, with its first letter capitalised when the first matched
    character was uppercase. -/
def capFirst (m0 : Char) (rep : Str) : Str :=
  if pyIsUpper m0 then
    match rep with
    | [] => []
    | r :: rs => r.toUpper :: rs
  else rep

/-- Worker for the case-insensitive regex substitution of source
    lines 133-140 (pattern assumed nonempty).  Fuel starts at the length of
    the string and dominates it. -/
def ciSubGo (pat rep : Str) : Nat → Str → Str
  | 0, s => s
  | _ + 1, [] => []
  | f + 1, c :: s =>
    if ciMatches pat (c :: s) then
      capFirst c rep ++ ciSubGo pat rep f ((c :: s).drop pat.length)
    else c :: ciSubGo pat rep f s

/-- One case-insensitive, case-preserving replacement rule application
    (source lines 133-140). -/
def ciReplaceAll (s pat rep : Str) : Str :=
  match pat with
  | [] => s
  | _ :: _ => ciSubGo pat rep s.length s

/-- The replacement-rule loop of source lines 133-140, over REPLACEMENTS in
    table order. -/
def applyReplacements (s : Str) : Str :=
  REPLACEMENTS.foldl (fun t p => ciReplaceAll t p.1 p.2) s

/-- The per-line processing of source lines 127-140: underscores to spaces,
    whitespace runs collapsed, the double-asterisk marker deleted, then the
    lexical replacement rules. -/
def processLine (l : Str) : Str :=
  applyReplacements (replaceAll (collapseSpaces (l.map (fun c => if c = '_' then ' ' else c)))
    (str "**") [])

/-- normalize_translation (source lines 104-144). -/
def normalize_translation (t : Str) : Str :=
  joinSep (str "\n\n") ((pySplitlines t).filterMap (fun line =>
    let s := pyStrip line
    if s = [] then none
    else if IGNORE_WORDS_IN_TRANSLATION.any (fun w => hasSubstr w s) then none
    else if s.all (fun c => c == '*') then some s
    else some (processLine s)))

/- ----------------------------------------------------------------- -/
/- Boundary Tagger (add_underscore and detect_underscore, 164-186).   -/
/- ----------------------------------------------------------------- -/

/-- One line of the tagged-pattern search of source line 180: the regex
    asks for an underscore, one or more word characters, an underscore.
    Since the underscore is itself a word character, a match starting at an
    underscore exists exactly when another underscore occurs past the first
    position of the word-character run that follows. -/
def detectLine : Str → Bool
  | [] => false
  | c :: rest =>
    (c == '_' && ((rest.takeWhile isWordChar).drop 1).contains '_') || detectLine rest

/-- detect_underscore (source lines 178-186). -/
def detect_underscore (text : Str) : Bool := (pySplitlines text).any detectLine

/-- The whitespace-mode line tagging of source line 174: strip the line,
    split at every space, join the fields with underscores. -/
def tagLineWS (line : Str) : Str := joinSep ['_'] (splitSp (pyStrip line))

/-- add_underscore (source lines 164-175).  The jieba segmenter used in
    Chinese mode is an external capability (spec section 6) and is supplied
    as the parameter seg. -/
def add_underscore (seg : Str → List Str) (text : Str) (is_chinese : Bool) : Str :=
  if detect_underscore text then text
  else
    joinSep ['\n'] ((pySplitlines text).map (fun line =>
      if is_chinese then joinSep ['_'] (seg (pyStrip line))
      else tagLineWS line))

/-- A trivial segmentation capability: the whole line is one token.  Used to
    instantiate the seg parameter where Chinese mode is not exercised. -/
def segWhole : Str → List Str := fun l => [l]

/-- A character-level segmentation capability, a stand-in for an external
    segmenter that splits every code point apart. -/
def segChar : Str → List Str := fun l => l.map (fun c => [c])

/- ----------------------------------------------------------------- -/
/- Corrector (replace_text_segments, source lines 246-270).           -/
/- ----------------------------------------------------------------- -/

/-- Stable insertion for descending key length: a key is placed after all
    strictly longer keys and before keys of equal or smaller length, so
    equal lengths keep their original relative order, as Python's stable
    sorted with reverse=True does. -/
def insertDesc (k : Str) : List Str → List Str
  | [] => [k]
  | x :: xs => if k.length < x.length then x :: insertDesc k xs else k :: x :: xs

/-- sorted(keys, key=len, reverse=True) of source line 263. -/
def sortKeysDesc (l : List Str) : List Str := l.foldr insertDesc []

/-- Python dict get on the association list representing the dict (keys
    unique, insertion order preserved). -/
def lookupStr (k : Str) : List (Str × Str) → Option Str
  | [] => none
  | p :: rest => if p.1 = k then some p.2 else lookupStr k rest

/-- replace_text_segments (source lines 246-270): no-op on empty text or
    empty map; otherwise the keys are processed in descending length order
    (ties in original order) and each key with a truthy — that is,
    nonempty — mapped value is replaced everywhere by str.replace. -/
def replace_text_segments (text : Str) (replacement_map : List (Str × Str)) : Str :=
  if text = [] ∨ replacement_map = [] then text
  else
    (sortKeysDesc (replacement_map.map Prod.fst)).foldl
      (fun t k =>
        match lookupStr k replacement_map with
        | some r => if r = [] then t else replaceAll t k r
        | none => t) text

/- ----------------------------------------------------------------- -/
/- Claim theorems.                                                    -/
/- ----------------------------------------------------------------- -/

/-- C1: replace_text_segments applies the replacement map with keys ordered
    by descending length (ties broken by original map order), so a short key
    never matches inside a longer key's span: the map ab to X, a to Y sends
    the text ab to X and not to Yb, whatever order the map lists the keys
    in; equal-length overlapping keys are applied in original map order; and
    empty text or an empty map are returned unchanged. -/
theorem replace_text_segments_longest_first :
  replace_text_segments (str "ab") [(str "ab", str "X"), (str "a", str "Y")] = str "X"
  ∧ replace_text_segments (str "ab") [(str "a", str "Y"), (str "ab", str "X")] = str "X"
  ∧ replace_text_segments (str "abc") [(str "ab", str "X"), (str "bc", str "Y")] = str "Xc"
  ∧ replace_text_segments (str "abc") [(str "bc", str "Y"), (str "ab", str "X")] = str "aY"
  ∧ (∀ m : List (Str × Str), replace_text_segments [] m = [])
  ∧ (∀ t : Str, replace_text_segments t [] = t) := by
  refine ⟨by decide, by decide, by decide, by decide, ?_, ?_⟩
  · intro m
    unfold replace_text_segments
    rw [if_pos (Or.inl rfl)]
  · intro t
    unfold replace_text_segments
    rw [if_pos (Or.inr rfl)]

/-- Counterexample to C3: a key whose mapped value is the empty string is
    skipped by the falsy-value guard of source line 267, so its occurrence
    survives: the text a with the map sending a to the empty string is
    returned unchanged, not emptied. -/
theorem replace_text_segments_empty_value_cex :
  replace_text_segments (str "a") [(str "a", str "")] = str "a"
  ∧ replace_text_segments (str "a") [(str "a", str "")] ≠ str "" := by decide

/-- C4: split_text_into_chunks performs no eager validation of a degenerate
    chunk size.  With chunk_size 0 and empty text, and with chunk_size -1
    and nonempty text, it silently returns chunk lists; the ValueError of
    Python range only arises while processing a nonempty line with
    chunk_size 0. -/
theorem split_text_into_chunks_degenerate :
  split_text_into_chunks [] 0 = Except.ok []
  ∧ split_text_into_chunks (str "a") (-1) = Except.ok []
  ∧ split_text_into_chunks (str "a") 0 =
      Except.error "ValueError: range() arg 3 must not be zero" := by
  exact ⟨rfl, rfl, rfl⟩

/-- Counterexample to C7: tagging is not idempotent.  In whitespace mode the
    text consisting of the line a followed by a blank line tags to a
    followed by a newline, whose own tagging drops the trailing newline. -/
theorem add_underscore_not_idempotent :
  add_underscore segWhole (str "a\n\n") false = str "a\n"
  ∧ add_underscore segWhole (add_underscore segWhole (str "a\n\n") false) false = str "a"
  ∧ add_underscore segWhole (add_underscore segWhole (str "a\n\n") false) false
      ≠ add_underscore segWhole (str "a\n\n") false := by decide

/-- C9: normalize_translation drops blank lines, drops lines containing a
    configured ignore-marker phrase, strips the double-asterisk emphasis
    markers, turns underscores into spaces, collapses whitespace runs, and
    rejoins surviving lines with a blank line between them; the two
    evaluations exercise each of these behaviours. -/
theorem normalize_translation_values :
  normalize_translation (str "她说：**你好**\n\nBẢN DỊCH\nOK") = str "她说：你好\n\nOK"
  ∧ normalize_translation (str "a_b  c") = str "a b c" := by decide

/-- C10: the tagged-run pattern needs a delimiter on both sides of a word
    run, so a two-token line tags to a single-underscore line that the
    pattern search does not recognise; a second tagging call therefore
    re-tokenizes instead of taking the guard's early return, observably so
    in Chinese-script mode with a character-level segmenter. -/
theorem detect_underscore_gap :
  detect_underscore (str "ab cd") = false
  ∧ add_underscore segWhole (str "ab cd") false = str "ab_cd"
  ∧ detect_underscore (str "ab_cd") = false
  ∧ detect_underscore (str "ab_cd_ef") = true
  ∧ detect_underscore (add_underscore segChar (str "你好") true) = false
  ∧ add_underscore segChar (str "你好") true = str "你_好"
  ∧ add_underscore segChar (str "你_好") true = str "你___好" := by decide

/-- C8: the detector returns the pair false and ratio 0 on empty text, the
    pair true and ratio 100 on nonempty all-CJK text, and in general the
    ratio lies between 0 and 100 while the flag holds exactly when the CJK
    count is positive. -/
theorem detect_untranslated_chinese_values :
  detect_untranslated_chinese [] = (false, 0)
  ∧ (∀ t : Str, t ≠ [] → (∀ c ∈ t, isCJK c = true) →
      detect_untranslated_chinese t = (true, 100))
  ∧ (∀ t : Str,
      0 ≤ (detect_untranslated_chinese t).2 ∧ (detect_untranslated_chinese t).2 ≤ 100
      ∧ ((detect_untranslated_chinese t).1 = true ↔ 0 < (t.filter isCJK).length)) := by
  refine ⟨rfl, ?_, ?_⟩
  · intro t ht hall
    have hfil : t.filter isCJK = t := List.filter_eq_self.mpr hall
    have hlen : 0 < t.length := List.length_pos.mpr ht
    have hq : ((t.length : ℚ)) ≠ 0 := by exact_mod_cast hlen.ne'
    unfold detect_untranslated_chinese
    rw [hfil, if_pos hlen, div_self hq, one_mul]
    rw [decide_eq_true hlen]
  · intro t
    refine ⟨?_, ?_, ?_⟩
    · unfold detect_untranslated_chinese
      dsimp only
      split
      · positivity
      · norm_num
    · unfold detect_untranslated_chinese
      dsimp only
      split
      · rename_i hpos
        have hle : (t.filter isCJK).length ≤ t.length := List.length_filter_le _ _
        have h1 : (((t.filter isCJK).length : ℚ)) / (t.length : ℚ) ≤ 1 := by
          rw [div_le_one (by exact_mod_cast hpos)]
          exact_mod_cast hle
        calc (((t.filter isCJK).length : ℚ)) / (t.length : ℚ) * 100
            ≤ 1 * 100 := by
              exact mul_le_mul_of_nonneg_right h1 (by norm_num)
          _ = 100 := by norm_num
      · norm_num
    · unfold detect_untranslated_chinese
      dsimp only
      exact decide_eq_true_iff

/-- Witness for C8 at the one-character all-CJK text. -/
theorem detect_untranslated_chinese_values_witness :
  str "好" ≠ [] ∧ (∀ c ∈ str "好", isCJK c = true)
  ∧ detect_untranslated_chinese (str "好") = (true, 100) :=
  ⟨by decide, by decide,
   detect_untranslated_chinese_values.2.1 (str "好") (by decide) (by decide)⟩

/-- The loop invariant of the chunker: starting from a current chunk within
    the bound, a positive chunk size yields no error and only chunks within
    the bound. -/
theorem splitLoop_ok (cs : Int) (hcs : 0 < cs) :
    ∀ (lines : List Str) (cur : Str), (cur.length : Int) ≤ cs →
      ∃ l, splitLoop cs lines cur = Except.ok l ∧ ∀ ch ∈ l, (ch.length : Int) ≤ cs := by
  intro lines
  induction lines with
  | nil =>
    intro cur hc
    refine ⟨if cur = [] then [] else [cur], rfl, ?_⟩
    intro ch hch
    split at hch
    · exact absurd hch (List.not_mem_nil ch)
    · rw [List.mem_singleton] at hch
      subst hch
      exact hc
  | cons l rest ih =>
    intro cur hc
    by_cases h0 : pyStrip l = []
    · obtain ⟨ll, hll, hlb⟩ := ih cur hc
      exact ⟨ll, by simp [splitLoop, h0, hll], hlb⟩
    · by_cases h1 : cs < ((pyStrip l).length : Int)
      · have hr : pyRange (pyStrip l).length cs =
            Except.ok ((List.range (((pyStrip l).length + cs.toNat - 1) / cs.toNat)).map
              (fun i => i * cs.toNat)) := by
          unfold pyRange
          rw [if_neg hcs.ne', if_neg (not_lt.mpr hcs.le)]
        obtain ⟨tail, htail, htb⟩ := ih [] (by simp [hcs.le])
        have heq : splitLoop cs (l :: rest) cur =
            Except.ok ((if cur = [] then [] else [cur]) ++
              ((List.range (((pyStrip l).length + cs.toNat - 1) / cs.toNat)).map
                (fun i => i * cs.toNat)).map
                (fun i => ((pyStrip l).drop i).take cs.toNat) ++ tail) := by
          simp only [splitLoop]
          rw [if_neg h0, if_pos h1, hr, htail]
        refine ⟨_, heq, ?_⟩
        intro ch hch
        rcases List.mem_append.mp hch with hch2 | hch2
        · rcases List.mem_append.mp hch2 with hch3 | hch3
          · split at hch3
            · exact absurd hch3 (List.not_mem_nil ch)
            · rw [List.mem_singleton] at hch3
              subst hch3
              exact hc
          · obtain ⟨i, _, rfl⟩ := List.mem_map.mp hch3
            have hlen : (((pyStrip l).drop i).take cs.toNat).length ≤ cs.toNat :=
              le_trans (List.length_take_le _ _) (le_refl _)
            calc ((((pyStrip l).drop i).take cs.toNat).length : Int)
                ≤ (cs.toNat : Int) := by exact_mod_cast hlen
              _ = cs := Int.toNat_of_nonneg hcs.le
        · exact htb ch hch2
      · by_cases h2 : (cur.length : Int) +
            (((if cur = ([] : Str) then ([] : Str) else ['\n'])).length : Int) +
            (((pyStrip l).length : Int)) ≤ cs
        · have hlen2 : (((cur ++ (if cur = ([] : Str) then ([] : Str) else ['\n']) ++
              pyStrip l)).length : Int) ≤ cs := by
            push_cast [List.length_append]
            push_cast at h2
            linarith
          obtain ⟨ll, hll, hlb⟩ := ih (cur ++ (if cur = [] then [] else ['\n']) ++ pyStrip l) hlen2
          refine ⟨ll, ?_, hlb⟩
          simp only [splitLoop]
          rw [if_neg h0, if_neg h1, if_pos h2]
          exact hll
        · obtain ⟨tail, htail, htb⟩ := ih (pyStrip l) (not_lt.mp h1)
          refine ⟨cur :: tail, ?_, ?_⟩
          · simp only [splitLoop]
            rw [if_neg h0, if_neg h1, if_neg h2, htail]
          · intro ch hch
            rcases List.mem_cons.mp hch with rfl | hch2
            · exact hc
            · exact htb ch hch2

/-- C2: with a positive chunk_size every chunk produced by
    split_text_into_chunks has length at most chunk_size, no error is
    raised, and the empty text yields the empty chunk list. -/
theorem split_text_into_chunks_bound (text : Str) (cs : Int) (hcs : 0 < cs) :
  (∃ l, split_text_into_chunks text cs = Except.ok l ∧ ∀ ch ∈ l, (ch.length : Int) ≤ cs)
  ∧ split_text_into_chunks [] cs = Except.ok [] := by
  constructor
  · exact splitLoop_ok cs hcs (pySplitlines text) [] (by simp [hcs.le])
  · rfl

/-- Witness for C2 on a concrete text and chunk size. -/
theorem split_text_into_chunks_bound_witness :
  (0 : Int) < 3
  ∧ ((∃ l, split_text_into_chunks (str "hello\nworld") 3 = Except.ok l ∧
        ∀ ch ∈ l, (ch.length : Int) ≤ 3)
     ∧ split_text_into_chunks [] 3 = Except.ok [])
  ∧ split_text_into_chunks (str "hello\nworld") 3 =
      Except.ok [str "hel", str "lo", str "wor", str "ld"] :=
  ⟨by decide, split_text_into_chunks_bound (str "hello\nworld") 3 (by decide), rfl⟩

/-- The cleaner loop up to the first stop line: if line k is the first line
    whose lowercased text contains the stop marker, the loop's output is the
    filter of the lines strictly before k. -/
theorem cleanLines_stop : ∀ (ls : List Str) (k : Nat),
    k < ls.length →
    hasPS (ls.getD k []) = true →
    (ls.take k).all (fun l => !hasPS l) = true →
    cleanLines ls = (ls.take k).filter keepLine := by
  intro ls
  induction ls with
  | nil =>
    intro k hk
    simp at hk
  | cons l rest ih =>
    intro k hk hx hall
    cases k with
    | zero =>
      have hl : hasPS l = true := by simpa using hx
      simp [cleanLines, hl]
    | succ k =>
      rw [List.take_succ_cons, List.all_cons] at hall
      have hl : hasPS l = false := by
        have := ((Bool.and_eq_true _ _).mp hall).1
        simpa using this
      have hrec := ih k (by simpa using hk) (by simpa using hx)
        ((Bool.and_eq_true _ _).mp hall).2
      rw [List.take_succ_cons, List.filter_cons]
      unfold cleanLines
      rw [if_neg (by simp [hl])]
      by_cases hig : ignoreHit l = true
      · rw [if_pos hig, hrec, if_neg (by simp [keepLine, hig])]
      · have hig2 : ignoreHit l = false := by simpa using hig
        rw [if_neg (by simp [hig2])]
        by_cases hvn : contains_vietnamese l = true
        · rw [if_pos hvn, hrec, if_neg (by simp [keepLine, hvn])]
        · have hvn2 : contains_vietnamese l = false := by simpa using hvn
          rw [if_neg (by simp [hvn2]), hrec, if_pos (by simp [keepLine, hig2, hvn2])]

/-- C5: the cleaner's stop rule is a hard stop.  If, among the lines the
    cleaner iterates (the split of the tag-and-artifact-stripped input),
    line k is the first whose lowercased text contains the stop marker, the
    cleaner's whole output is the filtered join of the lines strictly before
    line k: the stop line and every later line contribute nothing. -/
theorem preprocess_downloaded_text_stop (text : Str) (k : Nat)
    (hk : k < (pySplitlines (stripArtifacts text)).length)
    (hx : hasPS ((pySplitlines (stripArtifacts text)).getD k []) = true)
    (hall : ((pySplitlines (stripArtifacts text)).take k).all (fun l => !hasPS l) = true) :
    preprocess_downloaded_text text =
      joinSep ['\n'] (((pySplitlines (stripArtifacts text)).take k).filter keepLine) := by
  unfold preprocess_downloaded_text
  rw [cleanLines_stop _ k hk hx hall]

/-- Witness for C5 on a concrete three-line chapter. -/
theorem preprocess_downloaded_text_stop_witness :
  1 < (pySplitlines (stripArtifacts (str "a\nps!\nsecret"))).length
  ∧ hasPS ((pySplitlines (stripArtifacts (str "a\nps!\nsecret"))).getD 1 []) = true
  ∧ ((pySplitlines (stripArtifacts (str "a\nps!\nsecret"))).take 1).all (fun l => !hasPS l) = true
  ∧ preprocess_downloaded_text (str "a\nps!\nsecret") =
      joinSep ['\n'] (((pySplitlines (stripArtifacts (str "a\nps!\nsecret"))).take 1).filter keepLine)
  ∧ preprocess_downloaded_text (str "a\nps!\nsecret") = str "a" :=
  ⟨by decide, by decide, by decide,
   preprocess_downloaded_text_stop (str "a\nps!\nsecret") 1 (by decide) (by decide) (by decide),
   by decide⟩

/-- A successful association-list lookup finds a pair of the list. -/
theorem lookupStr_mem : ∀ (m : List (Str × Str)) (k r : Str),
    lookupStr k m = some r → (k, r) ∈ m := by
  intro m
  induction m with
  | nil =>
    intro k r h
    exact absurd h (by simp [lookupStr])
  | cons p rest ih =>
    obtain ⟨a, b⟩ := p
    intro k r h
    unfold lookupStr at h
    split at h
    · rename_i hak
      injection h with h2
      simp only at hak
      rw [List.mem_cons]
      left
      rw [← hak, ← h2]
    · exact List.mem_cons_of_mem _ (ih k r h)

/-- C3 as amended: replace_text_segments replaces, longest key first, every
    leftmost non-overlapping occurrence of each key whose mapped value is
    nonempty — for a single such key the call is exactly Python str.replace
    — but a key whose mapped value is the empty string is skipped by the
    falsy-value guard, so a map all of whose values are empty leaves the
    text unchanged. -/
theorem replace_text_segments_amended :
  (∀ (text : Str) (m : List (Str × Str)), (∀ p ∈ m, p.2 = ([] : Str)) →
      replace_text_segments text m = text)
  ∧ (∀ (text k r : Str), text ≠ [] → r ≠ [] →
      replace_text_segments text [(k, r)] = replaceAll text k r)
  ∧ replace_text_segments (str "abab") [(str "ab", str "X")] = str "XX" := by
  refine ⟨?_, ?_, by decide⟩
  · intro text m hm
    unfold replace_text_segments
    by_cases h : text = [] ∨ m = []
    · rw [if_pos h]
    · rw [if_neg h]
      have hstep : ∀ (t : Str) (k : Str),
          (match lookupStr k m with
           | some r => if r = [] then t else replaceAll t k r
           | none => t) = t := by
        intro t k
        cases hlk : lookupStr k m with
        | none => rfl
        | some r =>
          have hr : r = [] := hm (k, r) (lookupStr_mem m k r hlk)
          simp [hr]
      generalize sortKeysDesc (m.map Prod.fst) = ks
      induction ks generalizing text with
      | nil => rfl
      | cons a as ih2 =>
        rw [List.foldl_cons]
        rw [hstep text a]
        exact ih2 text h
  · intro text k r htext hr
    unfold replace_text_segments
    rw [if_neg (by simp [htext])]
    simp [sortKeysDesc, insertDesc, lookupStr, hr]

/-- Witness for the amended C3: an all-empty-valued map is a no-op, and a
    single nonempty-valued key acts as str.replace. -/
theorem replace_text_segments_amended_witness :
  (∀ p ∈ [((str "a"), ([] : Str))], p.2 = ([] : Str))
  ∧ replace_text_segments (str "xax") [(str "a", [])] = str "xax"
  ∧ (str "aa" ≠ [] ∧ str "b" ≠ [])
  ∧ replace_text_segments (str "aa") [(str "a", str "b")] =
      replaceAll (str "aa") (str "a") (str "b") :=
  ⟨by decide,
   replace_text_segments_amended.1 (str "xax") [(str "a", [])] (by decide),
   ⟨by decide, by decide⟩,
   replace_text_segments_amended.2.1 (str "aa") (str "a") (str "b") (by decide) (by decide)⟩

/-- The Boolean containment test agrees with the existence of a split. -/
theorem hasSubstr_iff : ∀ (s p : Str), hasSubstr p s = true ↔ ∃ a b, s = a ++ p ++ b := by
  intro s
  induction s with
  | nil =>
    intro p
    unfold hasSubstr
    rw [decide_eq_true_iff]
    constructor
    · rintro rfl
      exact ⟨[], [], rfl⟩
    · rintro ⟨a, b, hab⟩
      rcases List.append_eq_nil.mp (List.append_eq_nil.mp hab.symm).1 with ⟨h1, h2⟩
      exact h2
  | cons c rest ih =>
    intro p
    rw [hasSubstr, Bool.or_eq_true]
    constructor
    · rintro (h | h)
      · have hp := of_decide_eq_true h
        have hsplit := List.take_append_drop p.length (c :: rest)
        rw [hp] at hsplit
        exact ⟨[], (c :: rest).drop p.length, by rw [List.nil_append]; exact hsplit.symm⟩
      · obtain ⟨a, b, hab⟩ := (ih p).mp h
        exact ⟨c :: a, b, by rw [hab]; rfl⟩
    · rintro ⟨a, b, hab⟩
      cases a with
      | nil =>
        left
        apply decide_eq_true
        rw [List.nil_append] at hab
        rw [hab]
        exact List.take_left _ _
      | cons a0 as =>
        right
        apply (ih p).mpr
        refine ⟨as, b, ?_⟩
        have : c :: rest = a0 :: (as ++ p ++ b) := by
          rw [hab]; rfl
        injection this with h1 h2

/-- A line the ignored-prefix test hits also satisfies the stop test: the
    configured ignored prefix contains the stop marker in lowered form, so
    such a line never survives to the prefix check. -/
theorem prefix_line_is_stop (l : Str) (h : ignoreHit l = true) : hasPS l = true := by
  unfold ignoreHit at h
  simp only [IGNORE_PREFIX_LIST, List.any_cons, List.any_nil, Bool.or_false] at h
  obtain ⟨a, b, rfl⟩ := (hasSubstr_iff l _).mp h
  unfold hasPS
  apply (hasSubstr_iff _ _).mpr
  refine ⟨a.map pyToLowerChar ++ str "htt", str "://" ++ b.map pyToLowerChar, ?_⟩
  rw [List.map_append, List.map_append]
  have hmap : (str "https://").map pyToLowerChar = (str "htt" ++ str "ps") ++ str "://" := by
    decide
  rw [hmap]
  simp [List.append_assoc]

/-- C6: among lines that reach the per-line filters (no stop marker, no
    Vietnamese characters), the cleaner discards a line under the
    ignored-prefix rule exactly when the line starts with a configured
    ignored prefix — indeed such a line is always kept, because a line
    containing the configured prefix anywhere would already have satisfied
    the stop test, both sides of the equivalence being empty. -/
theorem cleanLines_prefix_rule (l : Str) (ls : List Str)
    (h1 : hasPS l = false) (h2 : contains_vietnamese l = false) :
    (cleanLines (l :: ls) = cleanLines ls ↔
      ∃ p ∈ IGNORE_PREFIX_LIST, hasPrefixStr p l = true)
    ∧ cleanLines (l :: ls) = l :: cleanLines ls := by
  have hig : ignoreHit l = false := by
    cases hx : ignoreHit l
    · rfl
    · exact absurd (prefix_line_is_stop l hx) (by simp [h1])
  have hkeep : cleanLines (l :: ls) = l :: cleanLines ls := by
    conv_lhs => rw [cleanLines]
    rw [if_neg (by simp [h1]), if_neg (by simp [hig]), if_neg (by simp [h2])]
  refine ⟨?_, hkeep⟩
  rw [hkeep]
  constructor
  · intro h
    exfalso
    have := congrArg List.length h
    simp at this
  · rintro ⟨p, hp, hpre⟩
    exfalso
    simp only [IGNORE_PREFIX_LIST, List.mem_singleton] at hp
    subst hp
    have hp2 := of_decide_eq_true hpre
    have hsplit := List.take_append_drop (str "https://").length l
    rw [hp2] at hsplit
    have hsub : hasSubstr (str "https://") l = true := by
      apply (hasSubstr_iff _ _).mpr
      exact ⟨[], l.drop (str "https://").length, by
        rw [List.nil_append]; exact hsplit.symm⟩
    have hit : ignoreHit l = true := by
      simp [ignoreHit, IGNORE_PREFIX_LIST, hsub]
    rw [hit] at hig
    cases hig

/-- Witness for C6 on a concrete kept line. -/
theorem cleanLines_prefix_rule_witness :
  hasPS (str "hello") = false ∧ contains_vietnamese (str "hello") = false
  ∧ ((cleanLines [str "hello"] = cleanLines [] ↔
       ∃ p ∈ IGNORE_PREFIX_LIST, hasPrefixStr p (str "hello") = true)
     ∧ cleanLines [str "hello"] = str "hello" :: cleanLines []) :=
  ⟨by decide, by decide, cleanLines_prefix_rule (str "hello") [] (by decide) (by decide)⟩

/-- The head of a dropWhile result fails the predicate. -/
theorem dropWhile_head_false (p : Char → Bool) :
    ∀ (l : Str) (c : Char) (t : Str), l.dropWhile p = c :: t → p c = false := by
  intro l
  induction l with
  | nil =>
    intro c t h
    cases h
  | cons a l ih =>
    intro c t h
    by_cases hp : p a = true
    · rw [List.dropWhile_cons_of_pos hp] at h
      exact ih c t h
    · rw [List.dropWhile_cons_of_neg hp] at h
      injection h with h1 h2
      rw [← h1]
      simpa using hp

/-- The first character of a stripped line is not whitespace. -/
theorem pyStrip_head (l : Str) (c : Char) (t : Str) (h : pyStrip l = c :: t) :
    pyIsSpace c = false := by
  unfold pyStrip at h
  have h1 : (((l.dropWhile pyIsSpace).reverse.dropWhile pyIsSpace).reverse).head? = some c := by
    rw [h]
    rfl
  rw [List.head?_reverse] at h1
  have hYne : (l.dropWhile pyIsSpace).reverse.dropWhile pyIsSpace ≠ [] := by
    intro he
    rw [he] at h1
    cases h1
  obtain ⟨A, hA⟩ : ∃ A, A ++ (l.dropWhile pyIsSpace).reverse.dropWhile pyIsSpace =
      (l.dropWhile pyIsSpace).reverse := (List.dropWhile_suffix pyIsSpace)
  have h2 : ((l.dropWhile pyIsSpace).reverse).getLast? = some c := by
    rw [← hA, List.getLast?_append_of_ne_nil _ hYne]
    exact h1
  rw [List.getLast?_reverse] at h2
  cases hW : l.dropWhile pyIsSpace with
  | nil =>
    rw [hW] at h2
    cases h2
  | cons w ws =>
    rw [hW] at h2
    injection h2 with h3
    rw [← h3]
    exact dropWhile_head_false pyIsSpace l w ws hW

/-- The last character of a stripped line is not whitespace. -/
theorem pyStrip_last (l : Str) (c : Char) (h : (pyStrip l).getLast? = some c) :
    pyIsSpace c = false := by
  unfold pyStrip at h
  rw [List.getLast?_reverse] at h
  cases hW : (l.dropWhile pyIsSpace).reverse.dropWhile pyIsSpace with
  | nil =>
    rw [hW] at h
    cases h
  | cons w ws =>
    rw [hW] at h
    injection h with h3
    rw [← h3]
    exact dropWhile_head_false pyIsSpace _ w ws hW

/-- Stripping only removes characters. -/
theorem pyStrip_sub (l : Str) (c : Char) (h : c ∈ pyStrip l) : c ∈ l := by
  unfold pyStrip at h
  rw [List.mem_reverse] at h
  have h2 := (List.dropWhile_sublist pyIsSpace).mem h
  rw [List.mem_reverse] at h2
  exact (List.dropWhile_sublist pyIsSpace).mem h2

/-- Stripping is the identity when both ends are not whitespace. -/
theorem strip_noop (X : Str)
    (h1 : ∀ c, X.head? = some c → pyIsSpace c = false)
    (h2 : ∀ c, X.getLast? = some c → pyIsSpace c = false) :
    pyStrip X = X := by
  unfold pyStrip
  have e1 : X.dropWhile pyIsSpace = X := by
    cases X with
    | nil => rfl
    | cons c t =>
      rw [List.dropWhile_cons_of_neg]
      rw [h1 c rfl]
      simp
  rw [e1]
  have e2 : X.reverse.dropWhile pyIsSpace = X.reverse := by
    cases hX : X.reverse with
    | nil => rfl
    | cons c t =>
      rw [List.dropWhile_cons_of_neg]
      have hc : X.getLast? = some c := by
        rw [← List.head?_reverse, hX]
        rfl
      rw [h2 c hc]
      simp
  rw [e2, List.reverse_reverse]

/-- Unfolding equation for splitSp at a space. -/
theorem splitSp_cons_space (rest : Str) : splitSp (' ' :: rest) = [] :: splitSp rest := by
  simp [splitSp]

/-- Unfolding equation for splitSp at a non-space character. -/
theorem splitSp_cons_nonspace (c : Char) (rest : Str) (h : c ≠ ' ') :
    splitSp (c :: rest) =
      match splitSp rest with
      | [] => [[c]]
      | t :: ts => (c :: t) :: ts := by
  simp [splitSp, h]

/-- splitSp always yields at least one field. -/
theorem splitSp_ne_nil : ∀ s : Str, splitSp s ≠ [] := by
  intro s
  cases s with
  | nil => simp [splitSp]
  | cons c rest =>
    by_cases h : c = ' '
    · subst h
      rw [splitSp_cons_space]
      simp
    · rw [splitSp_cons_nonspace c rest h]
      cases splitSp rest <;> simp

/-- Fields produced by splitSp contain no space. -/
theorem splitSp_no_space : ∀ (s t : Str), t ∈ splitSp s → ∀ c ∈ t, c ≠ ' ' := by
  intro s
  induction s with
  | nil =>
    intro t ht c hc
    simp [splitSp] at ht
    subst ht
    cases hc
  | cons a rest ih =>
    intro t ht c hc
    by_cases h : a = ' '
    · subst h
      rw [splitSp_cons_space] at ht
      rcases List.mem_cons.mp ht with rfl | ht2
      · cases hc
      · exact ih t ht2 c hc
    · rw [splitSp_cons_nonspace a rest h] at ht
      cases hsp : splitSp rest with
      | nil => exact absurd hsp (splitSp_ne_nil rest)
      | cons t0 ts =>
        rw [hsp] at ht
        rcases List.mem_cons.mp ht with rfl | ht2
        · rcases List.mem_cons.mp hc with rfl | hc2
          · exact h
          · exact ih t0 (by rw [hsp]; exact List.mem_cons_self _ _) c hc2
        · exact ih t (by rw [hsp]; exact List.mem_cons_of_mem _ ht2) c hc

/-- Characters of splitSp fields come from the input. -/
theorem splitSp_sub : ∀ (s t : Str), t ∈ splitSp s → ∀ c ∈ t, c ∈ s := by
  intro s
  induction s with
  | nil =>
    intro t ht c hc
    simp [splitSp] at ht
    subst ht
    cases hc
  | cons a rest ih =>
    intro t ht c hc
    by_cases h : a = ' '
    · subst h
      rw [splitSp_cons_space] at ht
      rcases List.mem_cons.mp ht with rfl | ht2
      · cases hc
      · exact List.mem_cons_of_mem _ (ih t ht2 c hc)
    · rw [splitSp_cons_nonspace a rest h] at ht
      cases hsp : splitSp rest with
      | nil => exact absurd hsp (splitSp_ne_nil rest)
      | cons t0 ts =>
        rw [hsp] at ht
        rcases List.mem_cons.mp ht with rfl | ht2
        · rcases List.mem_cons.mp hc with rfl | hc2
          · exact List.mem_cons_self _ _
          · exact List.mem_cons_of_mem _
              (ih t0 (by rw [hsp]; exact List.mem_cons_self _ _) c hc2)
        · exact List.mem_cons_of_mem _
            (ih t (by rw [hsp]; exact List.mem_cons_of_mem _ ht2) c hc)

/-- A space-free string is a single field. -/
theorem splitSp_single : ∀ s : Str, (∀ c ∈ s, c ≠ ' ') → splitSp s = [s] := by
  intro s
  induction s with
  | nil =>
    intro _
    rfl
  | cons a rest ih =>
    intro h
    have ha : a ≠ ' ' := h a (List.mem_cons_self _ _)
    rw [splitSp_cons_nonspace a rest ha,
        ih (fun c hc => h c (List.mem_cons_of_mem _ hc))]

/-- The first field of a split at a non-space head starts with that head. -/
theorem splitSp_head (c : Char) (rest : Str) (h : c ≠ ' ') :
    ∃ t0 ts, splitSp (c :: rest) = (c :: t0) :: ts ∧ splitSp rest = t0 :: ts := by
  rw [splitSp_cons_nonspace c rest h]
  cases hsp : splitSp rest with
  | nil => exact absurd hsp (splitSp_ne_nil rest)
  | cons t0 ts => exact ⟨t0, ts, rfl, rfl⟩

/-- The last field of a split ends with the input's last character, when
    that character is not a space. -/
theorem splitSp_last : ∀ (s : Str) (d : Char), s.getLast? = some d → d ≠ ' ' →
    ∃ tl, (splitSp s).getLast? = some tl ∧ tl.getLast? = some d := by
  intro s
  induction s with
  | nil =>
    intro d h
    cases h
  | cons a rest ih =>
    intro d h hd
    cases rest with
    | nil =>
      have hda : a = d := by simpa using h
      subst hda
      rw [splitSp_cons_nonspace a [] hd]
      exact ⟨[a], by simp [splitSp], by simp⟩
    | cons b rest2 =>
      have h2 : (b :: rest2).getLast? = some d := by
        rw [← List.getLast?_cons_cons]
        exact h
      obtain ⟨tl, h3, h4⟩ := ih d h2 hd
      by_cases ha : a = ' '
      · subst ha
        rw [splitSp_cons_space]
        cases hsp : splitSp (b :: rest2) with
        | nil => exact absurd hsp (splitSp_ne_nil _)
        | cons t0 ts =>
          rw [hsp] at h3
          exact ⟨tl, by rw [List.getLast?_cons_cons]; exact h3, h4⟩
      · obtain ⟨t0, ts, he, hsp⟩ := splitSp_head a (b :: rest2) ha
        rw [he]
        rw [hsp] at h3
        cases ts with
        | nil =>
          have htl : t0 = tl := by simpa using h3
          subst htl
          refine ⟨a :: t0, by simp, ?_⟩
          cases hx : t0 with
          | nil =>
            rw [hx] at h4
            cases h4
          | cons u us =>
            rw [hx] at h4
            rw [List.getLast?_cons_cons]
            exact h4
        | cons t1 ts2 =>
          rw [List.getLast?_cons_cons] at h3
          rw [List.getLast?_cons_cons]
          exact ⟨tl, h3, h4⟩

/-- Characters of a join come from the separator or from some field. -/
theorem joinSep_mem (sep : Str) : ∀ (ts : List Str) (c : Char),
    c ∈ joinSep sep ts → c ∈ sep ∨ ∃ t ∈ ts, c ∈ t := by
  intro ts
  induction ts with
  | nil =>
    intro c hc
    simp [joinSep] at hc
  | cons t ts2 ih =>
    intro c hc
    cases ts2 with
    | nil =>
      right
      exact ⟨t, List.mem_cons_self _ _, by simpa [joinSep] using hc⟩
    | cons t1 ts3 =>
      rw [show joinSep sep (t :: t1 :: ts3) = t ++ sep ++ joinSep sep (t1 :: ts3) from rfl] at hc
      rcases List.mem_append.mp hc with h | h
      · rcases List.mem_append.mp h with h2 | h2
        · right
          exact ⟨t, List.mem_cons_self _ _, h2⟩
        · left
          exact h2
      · rcases ih c h with h2 | ⟨t2, ht2, hc2⟩
        · left
          exact h2
        · right
          exact ⟨t2, List.mem_cons_of_mem _ ht2, hc2⟩

/-- The head of a join whose first field is nonempty is that field's head. -/
theorem joinSep_head (sep : Str) (a : Char) (t0 : Str) (ts : List Str) :
    (joinSep sep ((a :: t0) :: ts)).head? = some a := by
  cases ts with
  | nil => rfl
  | cons t1 ts2 => rfl

/-- The last character of a join is the last character of its last field,
    provided that field is nonempty. -/
theorem joinSep_getLast (sep : Str) : ∀ (ts : List Str) (tl : Str) (d : Char),
    ts.getLast? = some tl → tl.getLast? = some d →
    (joinSep sep ts).getLast? = some d := by
  intro ts
  induction ts with
  | nil =>
    intro tl d h
    cases h
  | cons t ts2 ih =>
    intro tl d h1 h2
    cases ts2 with
    | nil =>
      have : t = tl := by simpa using h1
      subst this
      simpa [joinSep] using h2
    | cons t1 ts3 =>
      rw [List.getLast?_cons_cons] at h1
      have hJ := ih tl d h1 h2
      have hne : joinSep sep (t1 :: ts3) ≠ [] := by
        intro he
        rw [he] at hJ
        cases hJ
      show (t ++ sep ++ joinSep sep (t1 :: ts3)).getLast? = some d
      rw [List.append_assoc,
          List.getLast?_append_of_ne_nil _ (by simp [hne]),
          List.getLast?_append_of_ne_nil _ hne]
      exact hJ

/-- A newline join of two or more fields whose last field is empty ends in
    the newline character. -/
theorem joinSep_getLast_nil : ∀ (L : List Str), L.getLast? = some [] → 2 ≤ L.length →
    (joinSep ['\n'] L).getLast? = some '\n' := by
  intro L
  induction L with
  | nil =>
    intro h
    cases h
  | cons a L2 ih =>
    intro h hlen
    cases L2 with
    | nil => simp at hlen
    | cons b L3 =>
      rw [List.getLast?_cons_cons] at h
      cases L3 with
      | nil =>
        have hb : b = ([] : Str) := by simpa using h
        subst hb
        show (a ++ ['\n'] ++ joinSep ['\n'] [([] : Str)]).getLast? = some '\n'
        rw [show joinSep ['\n'] [([] : Str)] = [] from rfl, List.append_nil]
        exact List.getLast?_concat a
      | cons cc L4 =>
        have hJ := ih h (by simp)
        have hne : joinSep ['\n'] (b :: cc :: L4) ≠ [] := by
          intro he
          rw [he] at hJ
          cases hJ
        show (a ++ ['\n'] ++ joinSep ['\n'] (b :: cc :: L4)).getLast? = some '\n'
        rw [List.append_assoc,
            List.getLast?_append_of_ne_nil _ (by simp [hne]),
            List.getLast?_append_of_ne_nil _ hne]
        exact hJ

/-- Unfolding equation for pySplitlines at a non-boundary head of a string
    of length at least two. -/
theorem psl_cons_nonboundary (c d : Char) (rest : Str) (h : isLineBoundary c = false) :
    pySplitlines (c :: d :: rest) =
      match pySplitlines (d :: rest) with
      | [] => [[c]]
      | t :: ts => (c :: t) :: ts := by
  conv_lhs => rw [pySplitlines]
  rw [if_neg (by simp [h])]

/-- A one-character string with a non-boundary character is one line. -/
theorem psl_single (c : Char) (h : isLineBoundary c = false) :
    pySplitlines [c] = [[c]] := by
  simp [pySplitlines, h]

/-- Freedom from line-boundary characters. -/
def boundaryFree (l : Str) : Prop := ∀ c ∈ l, isLineBoundary c = false

/-- Lines produced by pySplitlines contain no line-boundary character
    (fuelled formulation for the induction). -/
theorem psl_boundaryFree : ∀ (n : Nat) (s : Str), s.length ≤ n →
    ∀ l ∈ pySplitlines s, boundaryFree l := by
  intro n
  induction n with
  | zero =>
    intro s hs l hl
    have hs0 : s = [] := List.length_eq_zero.mp (Nat.le_zero.mp hs)
    subst hs0
    simp [pySplitlines] at hl
  | succ n ih =>
    intro s hs l hl
    cases s with
    | nil => simp [pySplitlines] at hl
    | cons c s2 =>
      cases s2 with
      | nil =>
        by_cases hb : isLineBoundary c = true
        · rw [show pySplitlines [c] = [[]] by simp [pySplitlines, hb]] at hl
          rw [List.mem_singleton] at hl
          subst hl
          intro x hx
          cases hx
        · rw [psl_single c (by simpa using hb)] at hl
          rw [List.mem_singleton] at hl
          subst hl
          intro x hx
          rcases List.mem_singleton.mp hx with rfl
          simpa using hb
      | cons d s3 =>
        have hlen2 : (d :: s3).length ≤ n := by
          simp only [List.length_cons] at hs ⊢
          omega
        have hlen3 : s3.length ≤ n := by
          simp only [List.length_cons] at hs
          omega
        by_cases hb : isLineBoundary c = true
        · by_cases hcr : (c.val == 13 && d.val == 10) = true
          · rw [show pySplitlines (c :: d :: s3) = [] :: pySplitlines s3 by
                conv_lhs => rw [pySplitlines]
                rw [if_pos hb, if_pos hcr]] at hl
            rcases List.mem_cons.mp hl with rfl | hl2
            · intro x hx
              cases hx
            · exact ih s3 hlen3 l hl2
          · rw [show pySplitlines (c :: d :: s3) = [] :: pySplitlines (d :: s3) by
                conv_lhs => rw [pySplitlines]
                rw [if_pos hb, if_neg (by simpa using hcr)]] at hl
            rcases List.mem_cons.mp hl with rfl | hl2
            · intro x hx
              cases hx
            · exact ih (d :: s3) hlen2 l hl2
        · rw [psl_cons_nonboundary c d s3 (by simpa using hb)] at hl
          cases hsp : pySplitlines (d :: s3) with
          | nil =>
            rw [hsp] at hl
            rw [List.mem_singleton] at hl
            subst hl
            intro x hx
            rcases List.mem_singleton.mp hx with rfl
            simpa using hb
          | cons t ts =>
            rw [hsp] at hl
            rcases List.mem_cons.mp hl with rfl | hl2
            · intro x hx
              rcases List.mem_cons.mp hx with rfl | hx2
              · simpa using hb
              · exact ih (d :: s3) hlen2 t
                  (by rw [hsp]; exact List.mem_cons_self _ _) x hx2
            · exact ih (d :: s3) hlen2 l (by rw [hsp]; exact List.mem_cons_of_mem _ hl2)

/-- Lines produced by pySplitlines contain no line-boundary character. -/
theorem psl_bf (s : Str) : ∀ l ∈ pySplitlines s, boundaryFree l :=
  psl_boundaryFree s.length s (le_refl _)

/-- Splitting after a boundary-free line and an explicit newline peels that
    line off. -/
theorem psl_append : ∀ (l : Str), boundaryFree l → ∀ (t : Str),
    pySplitlines (l ++ '\n' :: t) = l :: pySplitlines t := by
  intro l
  induction l with
  | nil =>
    intro _ t
    cases t with
    | nil => decide
    | cons d t2 =>
      show pySplitlines ('\n' :: d :: t2) = [] :: pySplitlines (d :: t2)
      conv_lhs => rw [pySplitlines]
      rw [if_pos (by decide), if_neg (by simp [show (('\n'.val == 13) = false) from by decide])]
  | cons a l2 ih =>
    intro hb t
    have ha : isLineBoundary a = false := hb a (List.mem_cons_self _ _)
    have hne : l2 ++ '\n' :: t ≠ [] := by simp
    obtain ⟨d, r2, hd⟩ : ∃ d r2, l2 ++ '\n' :: t = d :: r2 := by
      cases hx : l2 ++ '\n' :: t with
      | nil => exact absurd hx hne
      | cons d r2 => exact ⟨d, r2, rfl⟩
    show pySplitlines (a :: (l2 ++ '\n' :: t)) = (a :: l2) :: pySplitlines t
    rw [hd, psl_cons_nonboundary a d r2 ha, ← hd]
    rw [ih (fun c hc => hb c (List.mem_cons_of_mem _ hc)) t]

/-- A nonempty boundary-free string is a single line. -/
theorem psl_no_newline : ∀ (l : Str), boundaryFree l → l ≠ [] → pySplitlines l = [l] := by
  intro l
  induction l with
  | nil =>
    intro _ h
    exact absurd rfl h
  | cons a l2 ih =>
    intro hb _
    have ha : isLineBoundary a = false := hb a (List.mem_cons_self _ _)
    cases l2 with
    | nil => exact psl_single a ha
    | cons b l3 =>
      rw [psl_cons_nonboundary a b l3 ha]
      rw [ih (fun c hc => hb c (List.mem_cons_of_mem _ hc)) (by simp)]

/-- Splitting a newline join of boundary-free lines recovers the lines,
    provided the final line is nonempty. -/
theorem psl_joinSep : ∀ (L : List Str), (∀ l ∈ L, boundaryFree l) →
    L.getLast? ≠ some [] → pySplitlines (joinSep ['\n'] L) = L := by
  intro L
  induction L with
  | nil =>
    intro _ _
    rfl
  | cons a L2 ih =>
    intro hbf hlast
    cases L2 with
    | nil =>
      have ha : a ≠ [] := by
        intro he
        subst he
        exact hlast (by simp)
      show pySplitlines a = [a]
      exact psl_no_newline a (hbf a (List.mem_cons_self _ _)) ha
    | cons b L3 =>
      have hjoin : joinSep ['\n'] (a :: b :: L3) = a ++ '\n' :: joinSep ['\n'] (b :: L3) := by
        show a ++ ['\n'] ++ joinSep ['\n'] (b :: L3) = _
        rw [List.append_assoc]
        rfl
      rw [hjoin, psl_append a (hbf a (List.mem_cons_self _ _)) _]
      rw [ih (fun l hl => hbf l (List.mem_cons_of_mem _ hl))
          (by rw [List.getLast?_cons_cons] at hlast; exact hlast)]

/-- A tagged line contains no space. -/
theorem tagLineWS_no_space (l : Str) : ∀ c ∈ tagLineWS l, c ≠ ' ' := by
  intro c hc
  unfold tagLineWS at hc
  rcases joinSep_mem ['_'] _ c hc with h | ⟨t, ht, hct⟩
  · rcases List.mem_singleton.mp h with rfl
    decide
  · exact splitSp_no_space _ t ht c hct

/-- Tagging a boundary-free line yields a boundary-free line. -/
theorem tagLineWS_bf (l : Str) (hb : boundaryFree l) : boundaryFree (tagLineWS l) := by
  intro c hc
  unfold tagLineWS at hc
  rcases joinSep_mem ['_'] _ c hc with h | ⟨t, ht, hct⟩
  · rcases List.mem_singleton.mp h with rfl
    decide
  · exact hb c (pyStrip_sub l c (splitSp_sub _ t ht c hct))

/-- Stripping a tagged line changes nothing. -/
theorem pyStrip_tagLineWS (l : Str) : pyStrip (tagLineWS l) = tagLineWS l := by
  apply strip_noop
  · intro c hc
    cases hS : pyStrip l with
    | nil =>
      have hnil : tagLineWS l = [] := by
        unfold tagLineWS
        rw [hS]
        rfl
      rw [hnil] at hc
      cases hc
    | cons a t =>
      have hans : pyIsSpace a = false := pyStrip_head l a t hS
      have ha : a ≠ ' ' := by
        intro he
        subst he
        rw [show pyIsSpace ' ' = true from rfl] at hans
        cases hans
      obtain ⟨t0, ts, he, _⟩ := splitSp_head a t ha
      have hh : (tagLineWS l).head? = some a := by
        unfold tagLineWS
        rw [hS, he]
        exact joinSep_head ['_'] a t0 ts
      rw [hh] at hc
      injection hc with hc2
      rw [← hc2]
      exact hans
  · intro c hc
    cases hS : pyStrip l with
    | nil =>
      have hnil : tagLineWS l = [] := by
        unfold tagLineWS
        rw [hS]
        rfl
      rw [hnil] at hc
      cases hc
    | cons a t =>
      cases hd : (pyStrip l).getLast? with
      | none =>
        rw [hS] at hd
        simp at hd
      | some d =>
        have hdns : pyIsSpace d = false := pyStrip_last l d hd
        have hd2 : d ≠ ' ' := by
          intro he
          subst he
          rw [show pyIsSpace ' ' = true from rfl] at hdns
          cases hdns
        obtain ⟨tl, h3, h4⟩ := splitSp_last (pyStrip l) d hd hd2
        have hlast : (tagLineWS l).getLast? = some d := by
          unfold tagLineWS
          exact joinSep_getLast ['_'] (splitSp (pyStrip l)) tl d h3 h4
        rw [hlast] at hc
        injection hc with hc2
        rw [← hc2]
        exact hdns

/-- Tagging a line twice is the same as tagging it once. -/
theorem tagLineWS_idem (l : Str) : tagLineWS (tagLineWS l) = tagLineWS l := by
  show joinSep ['_'] (splitSp (pyStrip (tagLineWS l))) = tagLineWS l
  rw [pyStrip_tagLineWS l, splitSp_single (tagLineWS l) (tagLineWS_no_space l)]
  rfl

/-- The untagged branch of add_underscore in whitespace mode. -/
theorem add_underscore_apply_false (seg : Str → List Str) (x : Str)
    (hx : detect_underscore x = false) :
    add_underscore seg x false = joinSep ['\n'] ((pySplitlines x).map tagLineWS) := by
  unfold add_underscore
  rw [if_neg (by simp [hx])]
  simp

/-- C7 as amended: tagging is idempotent whenever the first tagging's output
    matches the tagged pattern (the guard fires, in either mode), and, in
    whitespace mode, also whenever that output does not end with a newline;
    the claim's unconditional form fails on texts ending in a blank line. -/
theorem add_underscore_idem (seg : Str → List Str) (x : Str) (b : Bool)
    (h : detect_underscore (add_underscore seg x b) = true
       ∨ (b = false ∧ (add_underscore seg x b).getLast? ≠ some '\n')) :
    add_underscore seg (add_underscore seg x b) b = add_underscore seg x b := by
  by_cases hd : detect_underscore (add_underscore seg x b) = true
  · conv_lhs => rw [add_underscore]
    rw [if_pos hd]
  · have hd2 : detect_underscore (add_underscore seg x b) = false := by simpa using hd
    obtain ⟨hb, hlast⟩ := h.resolve_left hd
    subst hb
    by_cases hx : detect_underscore x = true
    · have hxx : add_underscore seg x false = x := by
        unfold add_underscore
        rw [if_pos hx]
      rw [hxx] at hd2
      rw [hd2] at hx
      cases hx
    · have hx2 : detect_underscore x = false := by simpa using hx
      have hT : add_underscore seg x false = joinSep ['\n'] ((pySplitlines x).map tagLineWS) :=
        add_underscore_apply_false seg x hx2
      have hbfL : ∀ l ∈ (pySplitlines x).map tagLineWS, boundaryFree l := by
        intro l hl
        obtain ⟨l0, hl0, rfl⟩ := List.mem_map.mp hl
        exact tagLineWS_bf l0 (psl_bf x l0 hl0)
      have hidem : ∀ l ∈ (pySplitlines x).map tagLineWS, tagLineWS l = l := by
        intro l hl
        obtain ⟨l0, _, rfl⟩ := List.mem_map.mp hl
        exact tagLineWS_idem l0
      by_cases hTnil : add_underscore seg x false = []
      · rw [hTnil]
        rfl
      · generalize hGL : (pySplitlines x).map tagLineWS = L at hT hbfL hidem
        have hlastL : L.getLast? ≠ some [] := by
          intro hsome
          rcases L with _ | ⟨e, L2⟩
          · simp at hsome
          · rcases L2 with _ | ⟨e2, L3⟩
            · have he : e = [] := by simpa using hsome
              subst he
              exact hTnil (by rw [hT]; rfl)
            · have h2 : 2 ≤ (e :: e2 :: L3).length := by simp
              have hend := joinSep_getLast_nil _ hsome h2
              rw [← hT] at hend
              exact hlast hend
        have hP : pySplitlines (add_underscore seg x false) = L := by
          rw [hT]
          exact psl_joinSep L hbfL hlastL
        rw [add_underscore_apply_false seg _ hd2, hP]
        have hmap : L.map tagLineWS = L := by
          have h1 : L.map tagLineWS = L.map (fun l => l) := List.map_congr_left hidem
          rw [h1, List.map_id']
        rw [hmap, ← hT]

/-- Witness for the amended C7 through the fired guard on a three-token line. -/
theorem add_underscore_idem_witness :
  detect_underscore (add_underscore segWhole (str "a b c") false) = true
  ∧ add_underscore segWhole (add_underscore segWhole (str "a b c") false) false
      = add_underscore segWhole (str "a b c") false :=
  ⟨by decide, add_underscore_idem segWhole (str "a b c") false (Or.inl (by decide))⟩
